import Mathlib

/-!
Verification of `NeuralNet.py` / `Neuron.py` (dwright04/neuralNet).

Shallow embedding conventions:
* numpy 2-D arrays are row-major `List (List ℚ)` (`Mat`); floats are modelled as `ℚ`.
* `dict`s keyed by contiguous layer indices `0..N` are modelled by a size function
  `arch : Nat → Nat` together with the bound `N`; the theta/activation dictionaries
  (keys `1..N`) are modelled as lists whose position `p` holds the entry for key `p+1`.
* numpy calls that raise (`np.reshape` on a size mismatch, fancy indexing out of
  bounds) are modelled with `Option`.
-/

namespace NNet

/-- numpy 2-D array, row-major. -/
abbrev Mat : Type := List (List ℚ)

/-- numpy slice `v[a:b]`: clamps at the ends, never errors. -/
def sliceL (v : List ℚ) (a b : Nat) : List ℚ := (v.drop a).take (b - a)

/-- Unchecked column-major (`order="F"`) reshape: entry `(i, j)` of the result is `v[j*r + i]`. -/
def reshapeF (v : List ℚ) (r c : Nat) : Mat :=
  (List.range r).map (fun i => (List.range c).map (fun j => v.getD (j * r + i) 0))

/-- `np.reshape(v, (r, c), order="F")`: raises `ValueError` unless `v` has exactly
`r*c` entries, modelled by `Option.none`. -/
def npReshapeF (v : List ℚ) (r c : Nat) : Option Mat :=
  if v.length = r * c then some (reshapeF v r c) else Option.none

/-- `np.ravel(M, order="F")`: reads `M` out column by column. -/
def npRavelF (M : Mat) : List ℚ :=
  ((List.range (M.headD []).length).map (fun j => M.map (fun row => row.getD j 0))).flatten

/-- Element count of the layer-`l` weight matrix, `architecture[l] * (architecture[l-1] + 1)`. -/
def layerCnt (arch : Nat → Nat) (l : Nat) : Nat := arch l * (arch (l - 1) + 1)

/-- The per-layer element counts for layers `1..N`, in order. -/
def layerSizes (arch : Nat → Nat) (N : Nat) : List Nat :=
  (List.range N).map (fun i => layerCnt arch (i + 1))

/-- Architecture-derived total parameter-vector length
`Σ_{l=1}^{N} architecture[l] * (architecture[l-1] + 1)`. -/
def paramLen (arch : Nat → Nat) (N : Nat) : Nat := (layerSizes arch N).sum

/-- The `for layer in list(self.architecture.keys())[2:]` loop of
`NeuralNetwork.reshapeParams` (lines 202-206): successively slices
`params[lastIndex : lastIndex + arch[layer]*(arch[layer-1]+1)]` and reshapes the
slice to `(arch[layer], arch[layer-1]+1)` column-major. -/
def reshapeLoop (arch : Nat → Nat) (params : List ℚ) : List Nat → Nat → Option (List Mat)
  | [], _ => some []
  | l :: rest, lastIndex =>
    match npReshapeF (sliceL params lastIndex (lastIndex + layerCnt arch l))
            (arch l) (arch (l - 1) + 1) with
    | Option.none => Option.none
    | some M => (reshapeLoop arch params rest (lastIndex + layerCnt arch l)).map (fun ts => M :: ts)

/-- `NeuralNetwork.reshapeParams` (lines 194-207): layer 1 is unrolled
(`thetas = {1: reshape(params[0 : arch[1]*(arch[0]+1)], ...)}`, `lastIndex` set to
that count), then the loop handles keys `2..N`.  The returned dict (keys `1..N`) is
a list whose position `p` holds the matrix for key `p+1`. -/
def reshapeParams (arch : Nat → Nat) (N : Nat) (params : List ℚ) : Option (List Mat) :=
  match npReshapeF (sliceL params 0 (arch 1 * (arch 0 + 1))) (arch 1) (arch 0 + 1) with
  | Option.none => Option.none
  | some M1 =>
    (reshapeLoop arch params ((List.range (N - 1)).map (fun i => i + 2))
        (arch 1 * (arch 0 + 1))).map (fun ts => M1 :: ts)

/-- Lines 289-292 of `NeuralNetwork.backProp`: `gradients = np.ravel(grads[1], order="F")`,
then each remaining layer's raveled matrix is concatenated in ascending key order. -/
def flattenGrads (grads : List Mat) : List ℚ :=
  match grads with
  | [] => []
  | g :: rest => rest.foldl (fun acc gl => acc ++ npRavelF gl) (npRavelF g)

/- ### Codec lemmas -/

theorem foldl_append_eq (f : Mat → List ℚ) (l : List Mat) :
    ∀ acc : List ℚ, l.foldl (fun a x => a ++ f x) acc = acc ++ (l.map f).flatten := by
  induction l with
  | nil => intro acc; simp
  | cons x xs ih => intro acc; simp [List.foldl_cons, ih, List.append_assoc]

theorem flattenGrads_eq_flatten (gs : List Mat) :
    flattenGrads gs = (gs.map npRavelF).flatten := by
  cases gs with
  | nil => rfl
  | cons g rest => simp [flattenGrads, foldl_append_eq]

theorem map_getD_range (v : List ℚ) : (List.range v.length).map (fun k => v.getD k 0) = v := by
  induction v with
  | nil => rfl
  | cons a t ih =>
    show (List.range (t.length + 1)).map (fun k => (a :: t).getD k 0) = a :: t
    rw [List.range_succ_eq_map, List.map_cons, List.map_map]
    refine congrArg (a :: ·) ?_
    rw [show ((fun k => (a :: t).getD k 0) ∘ Nat.succ) = (fun k => t.getD k 0) from
      funext (fun k => List.getD_cons_succ)]
    exact ih

theorem flatten_map_range (f : Nat → ℚ) (r : Nat) :
    ∀ c : Nat, ((List.range c).map (fun j => (List.range r).map (fun i => f (j * r + i)))).flatten
      = (List.range (c * r)).map f := by
  intro c
  induction c with
  | zero => simp
  | succ c ih =>
    rw [List.range_succ, List.map_append, List.flatten_append, ih]
    have h : (c + 1) * r = c * r + r := by ring
    rw [h, List.range_add, List.map_append]
    simp [List.map_map, Function.comp]

theorem ravel_reshapeF (v : List ℚ) (r c : Nat) (h : v.length = r * c) :
    npRavelF (reshapeF v r c) = v := by
  rcases Nat.eq_zero_or_pos r with hr | hr
  · subst hr
    have hv : v = [] := List.eq_nil_of_length_eq_zero (by simpa using h)
    subst hv
    rfl
  · have hhead : (reshapeF v r c).headD [] = (List.range c).map (fun j => v.getD (j * r + 0) 0) := by
      obtain ⟨r', rfl⟩ := Nat.exists_eq_succ_of_ne_zero (Nat.pos_iff_ne_zero.mp hr)
      simp [reshapeF, List.range_succ_eq_map]
    have hlen : ((reshapeF v r c).headD []).length = c := by rw [hhead]; simp
    have hrow : ∀ j, (reshapeF v r c).map (fun row => row.getD j 0)
        = (List.range r).map (fun i => ((List.range c).map (fun j' => v.getD (j' * r + i) 0)).getD j 0) := by
      intro j; simp [reshapeF, List.map_map, Function.comp]
    unfold npRavelF
    rw [hlen]
    have hblocks : (List.range c).map (fun j => (reshapeF v r c).map (fun row => row.getD j 0))
        = (List.range c).map (fun j => (List.range r).map (fun i => v.getD (j * r + i) 0)) := by
      refine List.map_congr_left ?_
      intro j hj
      rw [List.mem_range] at hj
      rw [hrow j]
      refine List.map_congr_left ?_
      intro i _
      rw [List.getD_eq_getElem?_getD, List.getElem?_map, List.getElem?_range hj]
      rfl
    rw [hblocks]
    calc ((List.range c).map (fun j => (List.range r).map (fun i => v.getD (j * r + i) 0))).flatten
        = (List.range (c * r)).map (fun x => v.getD x 0) :=
          flatten_map_range (fun x => v.getD x 0) r c
      _ = v := by
          have hcr : c * r = v.length := by rw [h, Nat.mul_comm]
          rw [hcr]
          exact map_getD_range v

theorem length_sliceL (v : List ℚ) (a n : Nat) :
    (sliceL v a (a + n)).length = min n (v.length - a) := by
  simp [sliceL, Nat.add_sub_cancel_left]

theorem sliceL_eq (v : List ℚ) (a n : Nat) : sliceL v a (a + n) = (v.drop a).take n := by
  simp [sliceL, Nat.add_sub_cancel_left]

theorem reshapeLoop_some (arch : Nat → Nat) (params : List ℚ) :
    ∀ (ls : List Nat) (off : Nat),
      off + (ls.map (layerCnt arch)).sum ≤ params.length →
      ∃ ts, reshapeLoop arch params ls off = some ts ∧
        (ts.map npRavelF).flatten = (params.drop off).take ((ls.map (layerCnt arch)).sum) := by
  intro ls
  induction ls with
  | nil =>
    intro off _
    exact ⟨[], rfl, by simp⟩
  | cons l rest ih =>
    intro off hoff
    have hsum : (l :: rest).map (layerCnt arch) = layerCnt arch l :: rest.map (layerCnt arch) := rfl
    rw [hsum, List.sum_cons] at hoff
    have hfit : off + layerCnt arch l ≤ params.length := by omega
    have hslice : (sliceL params off (off + layerCnt arch l)).length = layerCnt arch l := by
      rw [length_sliceL]
      omega
    have hreshape : npReshapeF (sliceL params off (off + layerCnt arch l)) (arch l) (arch (l - 1) + 1)
        = some (reshapeF (sliceL params off (off + layerCnt arch l)) (arch l) (arch (l - 1) + 1)) := by
      unfold npReshapeF
      exact if_pos hslice
    obtain ⟨ts, hts, hflat⟩ := ih (off + layerCnt arch l) (by omega)
    refine ⟨reshapeF (sliceL params off (off + layerCnt arch l)) (arch l) (arch (l - 1) + 1) :: ts,
      ?_, ?_⟩
    · simp [reshapeLoop, hreshape, hts]
    · have hR : npRavelF (reshapeF (sliceL params off (off + layerCnt arch l)) (arch l) (arch (l - 1) + 1))
          = sliceL params off (off + layerCnt arch l) := ravel_reshapeF _ _ _ hslice
      simp only [List.map_cons, List.flatten_cons, hR, hflat]
      rw [List.sum_cons, sliceL_eq]
      have hdrop : params.drop (off + layerCnt arch l) = (params.drop off).drop (layerCnt arch l) := by
        rw [List.drop_drop]
      rw [hdrop, ← List.take_add]

theorem reshapeLoop_short (arch : Nat → Nat) (params : List ℚ) :
    ∀ (ls : List Nat) (off : Nat),
      off ≤ params.length →
      params.length < off + (ls.map (layerCnt arch)).sum →
      reshapeLoop arch params ls off = Option.none := by
  intro ls
  induction ls with
  | nil =>
    intro off h1 h2
    simp at h2
    omega
  | cons l rest ih =>
    intro off h1 h2
    rw [List.map_cons, List.sum_cons] at h2
    by_cases hfit : off + layerCnt arch l ≤ params.length
    · have hslice : (sliceL params off (off + layerCnt arch l)).length = layerCnt arch l := by
        rw [length_sliceL]
        omega
      have hre : npReshapeF (sliceL params off (off + layerCnt arch l)) (arch l) (arch (l - 1) + 1)
          = some (reshapeF (sliceL params off (off + layerCnt arch l)) (arch l) (arch (l - 1) + 1)) := by
        unfold npReshapeF
        exact if_pos hslice
      have hih : reshapeLoop arch params rest (off + layerCnt arch l) = Option.none :=
        ih (off + layerCnt arch l) hfit (by omega)
      simp [reshapeLoop, hre, hih]
    · have hslice : (sliceL params off (off + layerCnt arch l)).length
          ≠ arch l * (arch (l - 1) + 1) := by
        rw [length_sliceL]
        have hcnt : layerCnt arch l = arch l * (arch (l - 1) + 1) := rfl
        omega
      have hre : npReshapeF (sliceL params off (off + layerCnt arch l)) (arch l) (arch (l - 1) + 1)
          = Option.none := by
        unfold npReshapeF
        exact if_neg hslice
      simp [reshapeLoop, hre]

theorem layerSizes_eq_map (arch : Nat → Nat) (N : Nat) :
    ((List.range N).map (fun i => i + 1)).map (layerCnt arch) = layerSizes arch N := by
  rw [List.map_map]
  rfl

theorem reshapeParams_eq_loop (arch : Nat → Nat) (N : Nat) (params : List ℚ) (hN : 1 ≤ N) :
    reshapeParams arch N params
      = reshapeLoop arch params ((List.range N).map (fun i => i + 1)) 0 := by
  obtain ⟨n, rfl⟩ := Nat.exists_eq_add_of_le hN
  have hlist : (List.range (1 + n)).map (fun i => i + 1)
      = 1 :: (List.range (1 + n - 1)).map (fun i => i + 2) := by
    rw [Nat.add_comm 1 n, List.range_succ_eq_map]
    simp [List.map_map, Function.comp, Nat.succ_eq_add_one]
  rw [hlist]
  cases h : npReshapeF (sliceL params 0 (arch 1 * (arch 0 + 1))) (arch 1) (arch 0 + 1) with
  | none => simp [reshapeParams, reshapeLoop, layerCnt, h]
  | some M => simp [reshapeParams, reshapeLoop, layerCnt, h]

theorem reshapeParams_roundtrip_le (arch : Nat → Nat) (N : Nat) (params : List ℚ)
    (hN : 1 ≤ N) (h : paramLen arch N ≤ params.length) :
    ∃ ts, reshapeParams arch N params = some ts ∧
      flattenGrads ts = params.take (paramLen arch N) := by
  have hsum : (((List.range N).map (fun i => i + 1)).map (layerCnt arch)).sum = paramLen arch N := by
    rw [layerSizes_eq_map]; rfl
  obtain ⟨ts, hts, hflat⟩ :=
    reshapeLoop_some arch params ((List.range N).map (fun i => i + 1)) 0
      (by rw [hsum]; omega)
  refine ⟨ts, ?_, ?_⟩
  · rw [reshapeParams_eq_loop arch N params hN, hts]
  · rw [flattenGrads_eq_flatten, hflat, hsum, List.drop_zero]

theorem reshapeParams_too_short (arch : Nat → Nat) (N : Nat) (params : List ℚ)
    (hN : 1 ≤ N) (h : params.length < paramLen arch N) :
    reshapeParams arch N params = Option.none := by
  rw [reshapeParams_eq_loop arch N params hN]
  refine reshapeLoop_short arch params _ 0 (Nat.zero_le _) ?_
  rw [Nat.zero_add, layerSizes_eq_map]
  exact h

/- ### Claim theorems for the codec -/

/-- C1: for every architecture with contiguous keys `[0..N]` (`N ≥ 1`) and every flat
parameter vector whose length equals `Σ architecture[l+1]*(architecture[l]+1)`,
flattening (layer-ascending, column-major — the concatenation performed at the end of
`backProp`) the result of `reshapeParams` yields exactly the original vector. -/
theorem reshapeParams_flatten_roundtrip (arch : Nat → Nat) (N : Nat) (params : List ℚ)
    (hN : 1 ≤ N) (h : params.length = paramLen arch N) :
    ∃ ts, reshapeParams arch N params = some ts ∧ flattenGrads ts = params := by
  obtain ⟨ts, hts, hflat⟩ :=
    reshapeParams_roundtrip_le arch N params hN (Nat.le_of_eq h.symm)
  exact ⟨ts, hts, by rw [hflat, ← h, List.take_length]⟩

/-- Witness for C1 at architecture `0,1,2 ↦ 1`, `params = [1,2,3,4]`. -/
theorem reshapeParams_flatten_roundtrip_witness :
    (1 ≤ 2 ∧ ([1, 2, 3, 4] : List ℚ).length = paramLen (fun _ => 1) 2) ∧
    ∃ ts, reshapeParams (fun _ => 1) 2 [1, 2, 3, 4] = some ts ∧ flattenGrads ts = [1, 2, 3, 4] :=
  ⟨⟨by decide, by decide⟩,
    reshapeParams_flatten_roundtrip (fun _ => 1) 2 [1, 2, 3, 4] (by decide) (by decide)⟩

/-- C2 counterexample: on the architecture `0,1,2 ↦ 1` the derived total is 4, yet
`reshapeParams` applied to a 5-element vector does not fail — it silently truncates,
returning the thetas built from the first 4 entries and ignoring the trailing one. -/
theorem reshapeParams_silent_truncation_cex :
    ([1, 2, 3, 4, 5] : List ℚ).length ≠ paramLen (fun _ => 1) 2 ∧
    reshapeParams (fun _ => 1) 2 [1, 2, 3, 4, 5] = some [[[1, 2]], [[3, 4]]] :=
  ⟨by decide, by decide⟩

/-- C2 (amended): `reshapeParams` fails (numpy reshape `ValueError`) on every vector
that is too short for the architecture-derived total, but it silently truncates a
too-long vector: whenever the vector has at least the derived total of entries it
succeeds, and the thetas it returns flatten back to exactly the first `paramLen`
entries of the vector. -/
theorem reshapeParams_wrong_length (arch : Nat → Nat) (N : Nat) (params : List ℚ)
    (hN : 1 ≤ N) :
    (params.length < paramLen arch N → reshapeParams arch N params = Option.none) ∧
    (paramLen arch N ≤ params.length →
      ∃ ts, reshapeParams arch N params = some ts ∧
        flattenGrads ts = params.take (paramLen arch N)) :=
  ⟨fun h => reshapeParams_too_short arch N params hN h,
   fun h => reshapeParams_roundtrip_le arch N params hN h⟩

/-- Witness for the amended C2 at a too-short vector `[1,2,3]` (total is 4). -/
theorem reshapeParams_wrong_length_witness :
    (1 : Nat) ≤ 2 ∧
    ((([1, 2, 3] : List ℚ).length < paramLen (fun _ => 1) 2 →
        reshapeParams (fun _ => 1) 2 [1, 2, 3] = Option.none) ∧
      (paramLen (fun _ => 1) 2 ≤ ([1, 2, 3] : List ℚ).length →
        ∃ ts, reshapeParams (fun _ => 1) 2 [1, 2, 3] = some ts ∧
          flattenGrads ts = ([1, 2, 3] : List ℚ).take (paramLen (fun _ => 1) 2))) :=
  ⟨by decide, reshapeParams_wrong_length (fun _ => 1) 2 [1, 2, 3] (by decide)⟩

/- ### Dense linear algebra (numpy operations used by feedForward / backProp) -/

/-- `np.dot` on 2-D arrays: entry `(i, j)` is `Σ_k A[i][k] * B[k][j]`; the column count
of the result is read off the first row of `B`. -/
def matMul (A B : Mat) : Mat :=
  A.map (fun row => (List.range (B.headD []).length).map
    (fun j => (List.zipWith (fun a brow => a * brow.getD j 0) row B).sum))

/-- `M.transpose()`. -/
def transposeM (M : Mat) : Mat :=
  (List.range (M.headD []).length).map (fun j => M.map (fun row => row.getD j 0))

/-- `np.multiply` on equally shaped 2-D arrays (elementwise product). -/
def hadamard (A B : Mat) : Mat := List.zipWith (List.zipWith (fun x y => x * y)) A B

/-- `np.subtract` / `-` on equally shaped 2-D arrays. -/
def matSub (A B : Mat) : Mat := List.zipWith (List.zipWith (fun x y => x - y)) A B

/-- Elementwise application of a scalar function (numpy ufunc broadcasting of
`neuron(z)` / `dneuron(a)` over a 2-D array). -/
def matMap (f : ℚ → ℚ) (M : Mat) : Mat := M.map (List.map f)

/-- Scalar multiple `s * M` (elementwise). -/
def smul (s : ℚ) (M : Mat) : Mat := M.map (List.map (fun x => s * x))

/-- `np.tile(1, (1, m))`: the row of `m` ones prepended as the bias unit. -/
def onesRow (m : Nat) : List ℚ := List.replicate m (1 : ℚ)

/-- `np.sum(np.multiply(T[:, 1:], T[:, 1:]))` (lines 257-258): the sum of the squares of
every entry of `T` outside column 0. -/
def sumSqNonBias (M : Mat) : ℚ :=
  (M.map (fun row => ((row.drop 1).map (fun x => x * x)).sum)).sum

/-- Entry `(i, j)` of a matrix (0 outside the stored ranges). -/
def entry (M : Mat) (i j : Nat) : ℚ := (M.getD i []).getD j 0

/- ### feedForward (lines 245-271) -/

/-- The literal `1e-9` used by the stability check. -/
def eps : ℚ := 1 / 1000000000

/-- The `for layer in list(thetas.keys())[:-1]` loop of `feedForward` (lines 254-257)
together with line 258: walks the theta dict in key order carrying the current
activation and the regularisation accumulator.  Every key except the last one computes
`z = thetas[layer] · activs[layer]`, prepends the bias row to `neuron(z)` and adds
`sumSqNonBias thetas[layer]` to the accumulator; line 258 adds the last key's
`sumSqNonBias` after the loop.  Returns the activation dict (keys `1..N` as list
positions `0..N-1`) and the accumulator. -/
def ffActivsReg (neuron : ℚ → ℚ) (m : Nat) : List Mat → Mat → ℚ → List Mat × ℚ
  | [], a, reg => ([a], reg)
  | [th], a, reg => ([a], reg + sumSqNonBias th)
  | th :: th2 :: rest, a, reg =>
    let z := matMul th a
    let a2 := onesRow m :: matMap neuron z
    let p := ffActivsReg neuron m (th2 :: rest) a2 (reg + sumSqNonBias th)
    (a :: p.1, p.2)

/-- Lines 260-261: the hypothesis before the numerical-stability check,
`neuron(thetas[last key] · activs[last key])`. -/
def rawHypothesis (neuron : ℚ → ℚ) (thetas : List Mat) (input : Mat) (regTerm : ℚ)
    (m : Nat) : Mat :=
  matMap neuron (matMul (thetas.getLastD [])
    ((ffActivsReg neuron m thetas input regTerm).1.getLastD []))

/-- Lines 262-269: entries exactly equal to 1 get `1e-9` subtracted, then entries
exactly equal to 0 get `1e-9` added.  The `if 1 in hypothesis` / `if 0 in hypothesis`
guards only skip the masked assignment when no entry matches, in which case the masked
assignment would be a no-op anyway, so both steps are modelled as unconditional
elementwise updates. -/
def stabilize (H : Mat) : Mat :=
  matMap (fun x => if x = 0 then x + eps else x)
    (matMap (fun x => if x = 1 then x - eps else x) H)

/-- `NeuralNetwork.feedForward` (lines 245-271): returns
`(hypothesis, activations, regularisation accumulator)`. -/
def feedForward (neuron : ℚ → ℚ) (thetas : List Mat) (input : Mat) (regTerm : ℚ)
    (m : Nat) : Mat × List Mat × ℚ :=
  (stabilize (rawHypothesis neuron thetas input regTerm m),
   (ffActivsReg neuron m thetas input regTerm).1,
   (ffActivsReg neuron m thetas input regTerm).2)

/- ### feedForward lemmas -/

theorem ffActivsReg_reg (neuron : ℚ → ℚ) (m : Nat) :
    ∀ (ths : List Mat) (a : Mat) (reg : ℚ),
      (ffActivsReg neuron m ths a reg).2 = reg + (ths.map sumSqNonBias).sum := by
  intro ths
  induction ths with
  | nil => intro a reg; simp [ffActivsReg]
  | cons th rest ih =>
    intro a reg
    cases rest with
    | nil => simp [ffActivsReg]
    | cons th2 rest2 =>
      show (ffActivsReg neuron m (th :: th2 :: rest2) a reg).2 = _
      rw [ffActivsReg]
      simp only []
      rw [ih]
      simp only [List.map_cons, List.sum_cons]
      ring

theorem getD_map_lt {α β : Type} (f : α → β) (l : List α) (i : Nat) (d : α) (d' : β)
    (h : i < l.length) : (l.map f).getD i d' = f (l.getD i d) := by
  rw [List.getD_eq_getElem?_getD, List.getD_eq_getElem?_getD, List.getElem?_map,
    List.getElem?_eq_getElem h]
  rfl

theorem length_matMap (f : ℚ → ℚ) (M : Mat) : (matMap f M).length = M.length := by
  simp [matMap]

theorem entry_matMap (f : ℚ → ℚ) (M : Mat) (i j : Nat)
    (hi : i < M.length) (hj : j < (M.getD i []).length) :
    entry (matMap f M) i j = f (entry M i j) := by
  unfold entry matMap
  rw [getD_map_lt (List.map f) M i [] [] hi]
  exact getD_map_lt f (M.getD i []) j 0 0 hj

theorem getD_matMap (f : ℚ → ℚ) (M : Mat) (i : Nat) (hi : i < M.length) :
    (matMap f M).getD i [] = List.map f (M.getD i []) := by
  unfold matMap
  exact getD_map_lt (List.map f) M i [] [] hi

/- ### Claim theorems for feedForward -/

/-- C3: for every (nonempty) theta dict and input, the regularisation accumulator
returned by `feedForward` (with the accumulator started at 0, as `costFunction` does)
is the sum over every layer's weight matrix of the squares of all entries excluding
column 0, each layer contributing exactly once. -/
theorem feedForward_regTerm (neuron : ℚ → ℚ) (thetas : List Mat) (input : Mat) (m : Nat)
    (_hne : thetas ≠ []) :
    (feedForward neuron thetas input 0 m).2.2 = (thetas.map sumSqNonBias).sum := by
  show (ffActivsReg neuron m thetas input 0).2 = _
  rw [ffActivsReg_reg]
  exact zero_add _

/-- Witness for C3: a single sigmoid-free layer with weights `[[1,2],[3,4]]`; the
accumulator is `2^2 + 4^2` (column 0 excluded). -/
theorem feedForward_regTerm_witness :
    ([[[1, 2], [3, 4]]] : List Mat) ≠ [] ∧
    (feedForward (fun x => x) [[[1, 2], [3, 4]]] [[1], [1]] 0 1).2.2
      = (([[[1, 2], [3, 4]]] : List Mat).map sumSqNonBias).sum :=
  ⟨by decide, feedForward_regTerm (fun x => x) [[[1, 2], [3, 4]]] [[1], [1]] 1 (by decide)⟩

/-- C4: every entry of the hypothesis returned by `feedForward` that was exactly 1
before the stability check comes back as `1 - 1e-9`, every entry exactly 0 comes back
as `1e-9`, and every other entry (near-boundary values included) is returned
unchanged. -/
theorem feedForward_clamps_only_exact (neuron : ℚ → ℚ) (thetas : List Mat) (input : Mat)
    (regTerm : ℚ) (m : Nat) (i j : Nat)
    (hi : i < (rawHypothesis neuron thetas input regTerm m).length)
    (hj : j < ((rawHypothesis neuron thetas input regTerm m).getD i []).length) :
    entry (feedForward neuron thetas input regTerm m).1 i j
      = if entry (rawHypothesis neuron thetas input regTerm m) i j = 1 then 1 - eps
        else if entry (rawHypothesis neuron thetas input regTerm m) i j = 0 then eps
        else entry (rawHypothesis neuron thetas input regTerm m) i j := by
  show entry (stabilize (rawHypothesis neuron thetas input regTerm m)) i j = _
  unfold stabilize
  have hi1 : i < (matMap (fun x => if x = 1 then x - eps else x)
      (rawHypothesis neuron thetas input regTerm m)).length := by
    rw [length_matMap]; exact hi
  have hj1 : j < ((matMap (fun x => if x = 1 then x - eps else x)
      (rawHypothesis neuron thetas input regTerm m)).getD i []).length := by
    rw [getD_matMap _ _ _ hi, List.length_map]; exact hj
  rw [entry_matMap _ _ _ _ hi1 hj1, entry_matMap _ _ _ _ hi hj]
  generalize entry (rawHypothesis neuron thetas input regTerm m) i j = x
  by_cases h1 : x = 1
  · subst h1
    norm_num [eps]
  · by_cases h0 : x = 0
    · subst h0
      norm_num [eps]
    · simp only [if_neg h1, if_neg h0]

/-- Witness for C4: a 1x1 hypothesis that lands exactly on 1 and is nudged to
`1 - 1e-9`. -/
theorem feedForward_clamps_only_exact_witness :
    (0 < (rawHypothesis (fun x => x) [[[1, 0]]] [[1], [5]] 0 1).length ∧
      0 < ((rawHypothesis (fun x => x) [[[1, 0]]] [[1], [5]] 0 1).getD 0 []).length) ∧
    entry (feedForward (fun x => x) [[[1, 0]]] [[1], [5]] 0 1).1 0 0
      = if entry (rawHypothesis (fun x => x) [[[1, 0]]] [[1], [5]] 0 1) 0 0 = 1 then 1 - eps
        else if entry (rawHypothesis (fun x => x) [[[1, 0]]] [[1], [5]] 0 1) 0 0 = 0 then eps
        else entry (rawHypothesis (fun x => x) [[[1, 0]]] [[1], [5]] 0 1) 0 0 :=
  ⟨⟨by decide, by decide⟩,
    feedForward_clamps_only_exact (fun x => x) [[[1, 0]]] [[1], [5]] 0 1 0 0
      (by decide) (by decide)⟩

/- ### backProp (lines 273-292) -/

/-- The `for layer in range(numLayers, 2, -1)` loop of `backProp` (lines 281-284),
counted from the top: with `numLayers = N + 1` (architecture keys `0..N`),
`deltaK ... k` is `deltas[N+1-k]`.  `deltaK ... 0` is
`deltas[numLayers] = hypothesis - targets` (line 280, passed in as `d0`); the step
computes `deltas[layer-1] = (thetas[layer-1]^T · deltas[layer]) ⊙ dneuron(activs[layer-1])`
with its row 0 dropped (`[1:,:]`), where dict key `layer-1 = N-k` lives at list
position `N-k-1` of both `thetas` and `activs`. -/
def deltaK (dneuron : ℚ → ℚ) (thetas activs : List Mat) (N : Nat) (d0 : Mat) : Nat → Mat
  | 0 => d0
  | k + 1 =>
    (hadamard
      (matMul (transposeM (thetas.getD (N - k - 1) []))
        (deltaK dneuron thetas activs N d0 k))
      (matMap dneuron (activs.getD (N - k - 1) []))).drop 1

/-- Line 286: `grad = 1/m * (np.dot(deltas[layer+1], activs[layer].transpose()))`,
where `deltas[layer+1] = deltaK ... (N - layer)` and `activs[layer]` lives at list
position `layer - 1`. -/
def rawGrad (dneuron : ℚ → ℚ) (thetas activs : List Mat) (N : Nat) (hyp targets : Mat)
    (m : ℚ) (l : Nat) : Mat :=
  smul (1 / m) (matMul (deltaK dneuron thetas activs N (matSub hyp targets) (N - l))
    (transposeM (activs.getD (l - 1) [])))

/-- Line 287: `grad[:, 1:] = grad[:, 1:] + 1/m * (LAMBDA * thetas[layer][:, 1:])`;
column 0 of every row is left untouched. -/
def addReg (LAMBDA m : ℚ) (theta grad : Mat) : Mat :=
  List.zipWith (fun grow trow =>
    match grow with
    | [] => ([] : List ℚ)
    | g0 :: grest => g0 :: List.zipWith (fun g t => g + 1 / m * (LAMBDA * t)) grest (trow.drop 1))
    grad theta

/-- Lines 286-288 for one dict key `l ∈ 1..N`. -/
def gradAt (dneuron : ℚ → ℚ) (LAMBDA : ℚ) (thetas activs : List Mat) (N : Nat)
    (hyp targets : Mat) (m : ℚ) (l : Nat) : Mat :=
  addReg LAMBDA m (thetas.getD (l - 1) [])
    (rawGrad dneuron thetas activs N hyp targets m l)

/-- The grads dict of `backProp` (loop of lines 285-288), keys `1..N` as list
positions `0..N-1`. -/
def backPropGrads (dneuron : ℚ → ℚ) (LAMBDA : ℚ) (N : Nat) (thetas : List Mat)
    (hypothesis : Mat) (activs : List Mat) (targets : Mat) (m : ℚ) : List Mat :=
  (List.range N).map (fun i =>
    gradAt dneuron LAMBDA thetas activs N hypothesis targets m (i + 1))

/-- `NeuralNetwork.backProp` (lines 273-292): per-layer gradients flattened
layer-ascending, column-major (lines 289-292).  `N + 1 = len(architecture.keys())`
for architecture keys `0..N`. -/
def backProp (dneuron : ℚ → ℚ) (LAMBDA : ℚ) (N : Nat) (thetas : List Mat)
    (hypothesis : Mat) (activs : List Mat) (targets : Mat) (m : ℚ) : List ℚ :=
  flattenGrads (backPropGrads dneuron LAMBDA N thetas hypothesis activs targets m)

/- ### backProp lemmas -/

theorem getD_map_range {α : Type} (f : Nat → α) (n i : Nat) (d : α) :
    ((List.range n).map f).getD i d = if i < n then f i else d := by
  rw [List.getD_eq_getElem?_getD, List.getElem?_map]
  by_cases h : i < n
  · rw [List.getElem?_range h, if_pos h]
    rfl
  · rw [if_neg h]
    have hnone : (List.range n)[i]? = Option.none := by
      rw [List.getElem?_eq_none]
      simpa using Nat.le_of_not_lt h
    rw [hnone]
    rfl

theorem addReg_col0 (L1 L2 m : ℚ) :
    ∀ (g t : Mat) (i : Nat),
      ((addReg L1 m t g).getD i []).getD 0 0 = ((addReg L2 m t g).getD i []).getD 0 0 := by
  intro g
  induction g with
  | nil => intro t i; rfl
  | cons grow grest ih =>
    intro t i
    cases t with
    | nil => rfl
    | cons trow trest =>
      cases i with
      | zero =>
        cases grow with
        | nil => rfl
        | cons g0 gr => rfl
      | succ i =>
        simp only [addReg, List.zipWith_cons_cons, List.getD_cons_succ]
        exact ih trest i

/- ### Claim theorem for C5 -/

/-- C5: the bias-column (column 0) components of every layer's gradient matrix
computed by `backProp` do not depend on the regularisation strength `LAMBDA`: two
runs differing only in `LAMBDA` agree on every column-0 entry of every layer. -/
theorem backProp_bias_grads_lambda_free (dneuron : ℚ → ℚ) (L1 L2 : ℚ) (N : Nat)
    (thetas activs : List Mat) (hypothesis targets : Mat) (m : ℚ) (l i : Nat) :
    entry ((backPropGrads dneuron L1 N thetas hypothesis activs targets m).getD l []) i 0
      = entry ((backPropGrads dneuron L2 N thetas hypothesis activs targets m).getD l []) i 0 := by
  unfold backPropGrads
  rw [getD_map_range, getD_map_range]
  by_cases h : l < N
  · rw [if_pos h, if_pos h]
    unfold gradAt entry
    exact addReg_col0 L1 L2 m _ _ i
  · rw [if_neg h, if_neg h]

/- ### oneHotEncoding (lines 209-243) -/

/-- `NeuralNetwork.oneHotEncoding` (lines 209-243).  The body reads the name
`targets` where the parameter is `y` (a slip in the source); the only meaningful
reading, `targets := y`, is embedded.  `numClasses = len(np.unique(targets))` is the
number of distinct labels, i.e. `targets.dedup.length`.  numpy raises `IndexError`
when some label is `≥ numClasses` (modelled by `Option.none`); otherwise row `i` of
the `(m, numClasses)` zeros array receives a 1 at column `targets[i]` — making row
`i` the basis vector at `targets[i]` — and the transpose is returned. -/
def oneHotEncoding (targets : List Nat) : Option Mat :=
  if targets.all (fun t => decide (t < targets.dedup.length)) then
    some (transposeM (targets.map (fun t =>
      (List.range targets.dedup.length).map (fun j => if j = t then (1 : ℚ) else 0))))
  else Option.none

/-- C6: whenever the integer labels are 0-indexed against their distinct-value count
`k` (every label `< k`), `oneHotEncoding` succeeds and returns a `(k, m)` matrix
whose column `i` is the standard basis vector selecting `targets[i]`. -/
theorem oneHotEncoding_spec (targets : List Nat)
    (h : ∀ t ∈ targets, t < targets.dedup.length) :
    ∃ M, oneHotEncoding targets = some M ∧
      M.length = targets.dedup.length ∧
      (∀ row ∈ M, row.length = targets.length) ∧
      (∀ j i, j < targets.dedup.length → i < targets.length →
        entry M j i = if j = targets.getD i 0 then 1 else 0) := by
  have hall : targets.all (fun t => decide (t < targets.dedup.length)) = true := by
    rw [List.all_eq_true]
    intro t ht
    exact decide_eq_true (h t ht)
  have hsome : oneHotEncoding targets
      = some (transposeM (targets.map (fun t =>
          (List.range targets.dedup.length).map (fun j => if j = t then (1 : ℚ) else 0)))) := by
    unfold oneHotEncoding
    rw [if_pos hall]
  have hheadlen : ((targets.map (fun t => (List.range targets.dedup.length).map
      (fun j => if j = t then (1 : ℚ) else 0))).headD []).length = targets.dedup.length := by
    cases targets with
    | nil => simp
    | cons t0 rest => simp
  refine ⟨_, hsome, ?_, ?_, ?_⟩
  · rw [transposeM, hheadlen]
    simp
  · intro row hrow
    rw [transposeM] at hrow
    obtain ⟨j, _, rfl⟩ := List.mem_map.mp hrow
    simp
  · intro j i hj hi
    have hindlen : (targets.map (fun t => (List.range targets.dedup.length).map
        (fun j => if j = t then (1 : ℚ) else 0))).length = targets.length := by simp
    rw [entry, transposeM, hheadlen]
    rw [getD_map_range (fun j => (targets.map (fun t => (List.range targets.dedup.length).map
      (fun j2 => if j2 = t then (1 : ℚ) else 0))).map (fun row => row.getD j 0))
      targets.dedup.length j [], if_pos hj]
    have e1 : (List.map (fun row => row.getD j 0)
        (List.map (fun t => List.map (fun j2 => if j2 = t then (1 : ℚ) else 0)
          (List.range targets.dedup.length)) targets)).getD i 0
        = ((List.map (fun t => List.map (fun j2 => if j2 = t then (1 : ℚ) else 0)
            (List.range targets.dedup.length)) targets).getD i []).getD j 0 :=
      getD_map_lt (fun row => row.getD j 0)
        (List.map (fun t => List.map (fun j2 => if j2 = t then (1 : ℚ) else 0)
          (List.range targets.dedup.length)) targets)
        i [] 0 (by rw [hindlen]; exact hi)
    rw [e1]
    have e2 : (List.map (fun t => List.map (fun j2 => if j2 = t then (1 : ℚ) else 0)
        (List.range targets.dedup.length)) targets).getD i []
        = List.map (fun j2 => if j2 = targets.getD i 0 then (1 : ℚ) else 0)
            (List.range targets.dedup.length) :=
      getD_map_lt (fun t => List.map (fun j2 => if j2 = t then (1 : ℚ) else 0)
        (List.range targets.dedup.length)) targets i 0 [] hi
    rw [e2]
    rw [getD_map_range (fun j2 => if j2 = targets.getD i 0 then (1 : ℚ) else 0)
      targets.dedup.length j 0, if_pos hj]

/-- Witness for C6 at labels `[0,1,2,1]` (3 classes): the result is the claimed
`3x4` matrix with columns `[1,0,0]`, `[0,1,0]`, `[0,0,1]`, `[0,1,0]`. -/
theorem oneHotEncoding_spec_witness :
    (∀ t ∈ ([0, 1, 2, 1] : List Nat), t < ([0, 1, 2, 1] : List Nat).dedup.length) ∧
    oneHotEncoding [0, 1, 2, 1] = some [[1, 0, 0, 0], [0, 1, 0, 1], [0, 0, 1, 0]] ∧
    (∃ M, oneHotEncoding [0, 1, 2, 1] = some M ∧
      M.length = ([0, 1, 2, 1] : List Nat).dedup.length ∧
      (∀ row ∈ M, row.length = ([0, 1, 2, 1] : List Nat).length) ∧
      (∀ j i, j < ([0, 1, 2, 1] : List Nat).dedup.length → i < ([0, 1, 2, 1] : List Nat).length →
        entry M j i = if j = ([0, 1, 2, 1] : List Nat).getD i 0 then 1 else 0)) :=
  ⟨by decide, by decide, oneHotEncoding_spec [0, 1, 2, 1] (by decide)⟩

/- ### fit: architecture resolution (lines 92-104) -/

/-- A Python dict as an insertion-ordered association list: assigning an existing key
updates it in place, a new key is appended at the end. -/
def dictSet (d : List (Nat × Nat)) (k v : Nat) : List (Nat × Nat) :=
  if d.any (fun p => p.1 == k) then d.map (fun p => if p.1 == k then (k, v) else p)
  else d ++ [(k, v)]

/-- Dict lookup. -/
def dictGet (d : List (Nat × Nat)) (k : Nat) : Option Nat :=
  (d.find? (fun p => p.1 == k)).map (fun p => p.2)

/-- The architecture-mutation phase of `NeuralNetwork.fit` (lines 92-104):
`self.architecture[0] = n`, then — with `numLabels = len(np.unique(y))` — the key
`len(list(self.architecture.keys()))` (counted after key 0 was inserted) is set to
`numLabels` when `numLabels > 2`, to 1 when `numLabels == 2`, and nothing further
happens otherwise. -/
def fitArch (d : List (Nat × Nat)) (n numLabels : Nat) : List (Nat × Nat) :=
  if 2 < numLabels then dictSet (dictSet d 0 n) (dictSet d 0 n).length numLabels
  else if numLabels = 2 then dictSet (dictSet d 0 n) (dictSet d 0 n).length 1
  else dictSet d 0 n

/- ### fitArch lemmas -/

theorem dictSet_append (d : List (Nat × Nat)) (k v : Nat)
    (h : ∀ p ∈ d, (p.1 == k) = false) : dictSet d k v = d ++ [(k, v)] := by
  have hany : d.any (fun p => p.1 == k) = false := by
    rw [List.any_eq_false]
    intro p hp
    simp [h p hp]
  simp [dictSet, hany]

theorem dictSet_keys_of_update (d : List (Nat × Nat)) (k v : Nat) :
    (d.map (fun p => if p.1 == k then (k, v) else p)).map Prod.fst = d.map Prod.fst := by
  rw [List.map_map]
  refine List.map_congr_left ?_
  intro p _
  by_cases hp : (p.1 == k) = true
  · simp only [Function.comp, hp, if_pos]
    exact (beq_iff_eq.mp hp).symm
  · simp only [Function.comp, hp]
    rfl

theorem keys_range_of_map (d : List (Nat × Nat)) (H : Nat)
    (hd : d.map Prod.fst = (List.range H).map (fun i => i + 1)) :
    ∀ p ∈ d, ∃ i, i < H ∧ p.1 = i + 1 := by
  intro p hp
  have hmem : p.1 ∈ d.map Prod.fst := List.mem_map_of_mem Prod.fst hp
  rw [hd] at hmem
  obtain ⟨i, hi, hpi⟩ := List.mem_map.mp hmem
  exact ⟨i, List.mem_range.mp hi, hpi.symm⟩

theorem fitArch_first (d : List (Nat × Nat)) (H n u : Nat)
    (hd : d.map Prod.fst = (List.range H).map (fun i => i + 1)) (hu : 2 ≤ u) :
    fitArch d n u = d ++ [(0, n), (H + 1, if 2 < u then u else 1)] := by
  have hkeys := keys_range_of_map d H hd
  have hlen : d.length = H := by
    have := congrArg List.length hd
    simpa using this
  have h0 : ∀ p ∈ d, (p.1 == (0 : Nat)) = false := by
    intro p hp
    obtain ⟨i, _, hpi⟩ := hkeys p hp
    simp [hpi]
  have hd1 : dictSet d 0 n = d ++ [(0, n)] := dictSet_append d 0 n h0
  have hlen1 : (dictSet d 0 n).length = H + 1 := by
    rw [hd1]
    simp [hlen]
  have hH1 : ∀ p ∈ d ++ [(0, n)], (p.1 == H + 1) = false := by
    intro p hp
    rcases List.mem_append.mp hp with hp1 | hp2
    · obtain ⟨i, hi, hpi⟩ := hkeys p hp1
      have : p.1 ≠ H + 1 := by omega
      simp [this]
    · have : p = (0, n) := by simpa using hp2
      subst this
      simp
  have happ : ∀ w, dictSet (dictSet d 0 n) (H + 1) w = d ++ [(0, n), (H + 1, w)] := by
    intro w
    rw [hd1, dictSet_append (d ++ [(0, n)]) (H + 1) w hH1, List.append_assoc]
    rfl
  unfold fitArch
  rw [hlen1]
  by_cases h2 : 2 < u
  · rw [if_pos h2, happ u, if_pos h2]
  · have hu2 : u = 2 := by omega
    rw [if_neg h2, if_pos hu2, happ 1, if_neg h2]

theorem fitArch_second (d : List (Nat × Nat)) (H n out n' u' : Nat)
    (hd : d.map Prod.fst = (List.range H).map (fun i => i + 1)) (hu' : 2 ≤ u') :
    fitArch (d ++ [(0, n), (H + 1, out)]) n' u'
      = d ++ [(0, n'), (H + 1, out), (H + 2, if 2 < u' then u' else 1)] := by
  have hkeys := keys_range_of_map d H hd
  have hlen : d.length = H := by
    have := congrArg List.length hd
    simpa using this
  have hany : (d ++ [(0, n), (H + 1, out)]).any (fun p => p.1 == (0 : Nat)) = true := by
    rw [List.any_eq_true]
    exact ⟨(0, n), by simp, by simp⟩
  have hdmap : d.map (fun p => if p.1 == (0 : Nat) then ((0 : Nat), n') else p) = d := by
    have : ∀ p ∈ d, (fun p => if p.1 == (0 : Nat) then ((0 : Nat), n') else p) p = id p := by
      intro p hp
      obtain ⟨i, _, hpi⟩ := hkeys p hp
      simp [hpi]
    rw [List.map_congr_left this, List.map_id]
  have hd1 : dictSet (d ++ [(0, n), (H + 1, out)]) 0 n' = d ++ [(0, n'), (H + 1, out)] := by
    unfold dictSet
    rw [hany]
    simp only [if_true, List.map_append, hdmap]
    rfl
  have hlen1 : (dictSet (d ++ [(0, n), (H + 1, out)]) 0 n').length = H + 2 := by
    rw [hd1]
    simp [hlen]
  have hH2 : ∀ p ∈ d ++ [(0, n'), (H + 1, out)], (p.1 == H + 2) = false := by
    intro p hp
    rcases List.mem_append.mp hp with hp1 | hp2
    · obtain ⟨i, hi, hpi⟩ := hkeys p hp1
      have : p.1 ≠ H + 2 := by omega
      simp [this]
    · rcases (by simpa using hp2 : p = (0, n') ∨ p = (H + 1, out)) with h | h <;>
        · subst h
          simp
  have happ : ∀ w, dictSet (dictSet (d ++ [(0, n), (H + 1, out)]) 0 n') (H + 2) w
      = d ++ [(0, n'), (H + 1, out), (H + 2, w)] := by
    intro w
    rw [hd1, dictSet_append (d ++ [(0, n'), (H + 1, out)]) (H + 2) w hH2, List.append_assoc]
    rfl
  unfold fitArch
  rw [hlen1]
  by_cases h2 : 2 < u'
  · rw [if_pos h2, happ u', if_pos h2]
  · have hu2 : u' = 2 := by omega
    rw [if_neg h2, if_pos hu2, happ 1, if_neg h2]

theorem find?_key_append (d : List (Nat × Nat)) (k : Nat) (tail : List (Nat × Nat))
    (h : ∀ p ∈ d, (p.1 == k) = false) :
    (d ++ tail).find? (fun p => p.1 == k) = tail.find? (fun p => p.1 == k) := by
  rw [List.find?_append]
  have hnone : d.find? (fun p => p.1 == k) = Option.none := by
    rw [List.find?_eq_none]
    intro p hp
    simp [h p hp]
  rw [hnone]
  rfl

/-- C8 counterexample: re-fitting does not overwrite the previous resolution.  A
default instance (`architecture = {1: 25}`) fitted twice on 2-feature, 2-label data
ends with four architecture keys; the second fit appended a fresh output key 3
instead of reusing the resolved shape, so the mapping grew. -/
theorem fitArch_refit_grows_cex :
    fitArch (fitArch [(1, 25)] 2 2) 2 2 = [(1, 25), (0, 2), (2, 1), (3, 1)] ∧
    (fitArch (fitArch [(1, 25)] 2 2) 2 2).length ≠ (fitArch [(1, 25)] 2 2).length :=
  ⟨by decide, by decide⟩

/-- C8 (amended): after a first `fit` on a fresh instance whose architecture holds
hidden keys `1..H`, the keys form the contiguous range `[0..H+1]`, key 0 holds the
feature count and key `H+1` holds the label-derived output size (1 for 2 labels,
`u` for `u > 2` labels).  Re-fitting keeps the keys contiguous (`[0..H+2]`), stores
the new feature count at key 0 and the new label-derived size at the new top key —
but it grows the mapping by one key instead of overwriting the previous
resolution. -/
theorem fitArch_invariant (d : List (Nat × Nat)) (H n u n' u' : Nat)
    (hd : d.map Prod.fst = (List.range H).map (fun i => i + 1))
    (hu : 2 ≤ u) (hu' : 2 ≤ u') :
    ((fitArch d n u).map Prod.fst).Perm (List.range (H + 2)) ∧
    dictGet (fitArch d n u) 0 = some n ∧
    dictGet (fitArch d n u) (H + 1) = some (if 2 < u then u else 1) ∧
    ((fitArch (fitArch d n u) n' u').map Prod.fst).Perm (List.range (H + 3)) ∧
    dictGet (fitArch (fitArch d n u) n' u') 0 = some n' ∧
    dictGet (fitArch (fitArch d n u) n' u') (H + 2) = some (if 2 < u' then u' else 1) ∧
    (fitArch (fitArch d n u) n' u').length = (fitArch d n u).length + 1 := by
  have hkeys := keys_range_of_map d H hd
  have hlen : d.length = H := by simpa using congrArg List.length hd
  have h0 : ∀ p ∈ d, (p.1 == (0 : Nat)) = false := by
    intro p hp
    obtain ⟨i, _, hpi⟩ := hkeys p hp
    simp [hpi]
  have h1 := fitArch_first d H n u hd hu
  have h2 : fitArch (fitArch d n u) n' u'
      = d ++ [(0, n'), (H + 1, if 2 < u then u else 1),
              (H + 2, if 2 < u' then u' else 1)] := by
    rw [h1]
    exact fitArch_second d H n (if 2 < u then u else 1) n' u' hd hu'
  have hget0 : ∀ (v : Nat) (tl : List (Nat × Nat)), dictGet (d ++ ((0, v) :: tl)) 0 = some v := by
    intro v tl
    unfold dictGet
    rw [find?_key_append d 0 _ h0]
    rfl
  have hH1ne : ∀ p ∈ d ++ [(0, n)], (p.1 == H + 1) = false := by
    intro p hp
    rcases List.mem_append.mp hp with hp1 | hp2
    · obtain ⟨i, hi, hpi⟩ := hkeys p hp1
      have : p.1 ≠ H + 1 := by omega
      simp [this]
    · have : p = (0, n) := by simpa using hp2
      subst this
      simp
  have hH2ne : ∀ p ∈ d ++ [(0, n'), (H + 1, if 2 < u then u else 1)],
      (p.1 == H + 2) = false := by
    intro p hp
    rcases List.mem_append.mp hp with hp1 | hp2
    · obtain ⟨i, hi, hpi⟩ := hkeys p hp1
      have : p.1 ≠ H + 2 := by omega
      simp [this]
    · rcases (by simpa using hp2 : p = (0, n') ∨ p = (H + 1, if 2 < u then u else 1)) with h | h <;>
        · subst h
          simp
  refine ⟨?_, ?_, ?_, ?_, ?_, ?_, ?_⟩
  · rw [h1, List.map_append, hd]
    have hr : List.range (H + 2) = 0 :: ((List.range H).map (fun i => i + 1) ++ [H + 1]) := by
      rw [List.range_succ, List.range_succ_eq_map]
      simp [Nat.succ_eq_add_one]
    rw [hr]
    show ((List.range H).map (fun i => i + 1) ++ [0, H + 1]).Perm _
    exact List.Perm.trans List.perm_append_comm (List.Perm.cons 0 List.perm_append_comm)
  · rw [h1]
    exact hget0 n _
  · rw [h1, show d ++ [(0, n), (H + 1, if 2 < u then u else 1)]
        = (d ++ [(0, n)]) ++ [(H + 1, if 2 < u then u else 1)] by simp]
    unfold dictGet
    rw [find?_key_append _ _ _ hH1ne]
    simp
  · rw [h2, List.map_append, hd]
    have hr2 : List.range (H + 3)
        = 0 :: ((List.range H).map (fun i => i + 1) ++ [H + 1, H + 2]) := by
      rw [show H + 3 = (H + 2) + 1 from rfl, List.range_succ,
        show H + 2 = (H + 1) + 1 from rfl, List.range_succ, List.range_succ_eq_map]
      simp [Nat.succ_eq_add_one]
    rw [hr2]
    show ((List.range H).map (fun i => i + 1) ++ [0, H + 1, H + 2]).Perm _
    exact List.Perm.trans List.perm_append_comm (List.Perm.cons 0 List.perm_append_comm)
  · rw [h2]
    exact hget0 n' _
  · rw [h2, show d ++ [(0, n'), (H + 1, if 2 < u then u else 1),
          (H + 2, if 2 < u' then u' else 1)]
        = (d ++ [(0, n'), (H + 1, if 2 < u then u else 1)])
          ++ [(H + 2, if 2 < u' then u' else 1)] by simp]
    unfold dictGet
    rw [find?_key_append _ _ _ hH2ne]
    simp
  · rw [h2, h1]
    simp

/-- Witness for the amended C8: the default instance `{1: 25}` fitted on 2-feature
2-label data, then re-fitted on 3-feature 3-label data. -/
theorem fitArch_invariant_witness :
    (([(1, 25)] : List (Nat × Nat)).map Prod.fst = (List.range 1).map (fun i => i + 1) ∧
      (2 : Nat) ≤ 2 ∧ (2 : Nat) ≤ 3) ∧
    (((fitArch [(1, 25)] 2 2).map Prod.fst).Perm (List.range 3) ∧
      dictGet (fitArch [(1, 25)] 2 2) 0 = some 2 ∧
      dictGet (fitArch [(1, 25)] 2 2) 2 = some (if 2 < 2 then 2 else 1) ∧
      ((fitArch (fitArch [(1, 25)] 2 2) 3 3).map Prod.fst).Perm (List.range 4) ∧
      dictGet (fitArch (fitArch [(1, 25)] 2 2) 3 3) 0 = some 3 ∧
      dictGet (fitArch (fitArch [(1, 25)] 2 2) 3 3) 3 = some (if 2 < 3 then 3 else 1) ∧
      (fitArch (fitArch [(1, 25)] 2 2) 3 3).length = (fitArch [(1, 25)] 2 2).length + 1) :=
  ⟨⟨by decide, by decide, by decide⟩,
    fitArch_invariant [(1, 25)] 1 2 2 3 3 (by decide) (by decide) (by decide)⟩

/- ### __init__ / set_params / setattr (lines 52-68, 152-169) -/

/-- A Python attribute value, as stored in a NeuralNetwork instance `__dict__`. -/
inductive PyVal : Type
  | dictV : List (Nat × Nat) → PyVal
  | numV : ℚ → PyVal
  | strV : String → PyVal
  | natV : Nat → PyVal
  | arrV : List ℚ → PyVal
  | noneV : PyVal
deriving DecidableEq

/-- The `scipy_optimisers` lookup table of `__init__` (lines 55-56); only the names
matter here. -/
def scipyOptimisers : List String := ["fmin_cg", "fmin_bfgs"]

/-- `NeuralNetwork.__init__` (lines 52-68): the instance `__dict__` in attribute
insertion order (`architecture`, `LAMBDA`, `neuron`, `maxiter`, then `optimiser` via
the table lookup, then `_trainedParams = None`).  An unknown optimiser raises
`NotImplementedError`, modelled by `Option.none`.  The source stores the looked-up
scipy function under `optimiser`; the name it was looked up by stands in for it. -/
def initDict (architecture : List (Nat × Nat)) (LAMBDA : ℚ) (neuron : String)
    (optimiser : String) (maxiter : Nat) : Option (List (String × PyVal)) :=
  if scipyOptimisers.contains optimiser then
    some [("architecture", PyVal.dictV architecture), ("LAMBDA", PyVal.numV LAMBDA),
          ("neuron", PyVal.strV neuron), ("maxiter", PyVal.natV maxiter),
          ("optimiser", PyVal.strV optimiser), ("_trainedParams", PyVal.noneV)]
  else Option.none

/-- The `__dict__` of a NeuralNetwork built with all default `__init__` arguments
(`architecture={1:25}, LAMBDA=0.0, neuron='sigmoid', optimiser='fmin_cg',
maxiter=1000`). -/
def defaultDict : List (String × PyVal) :=
  [("architecture", PyVal.dictV [(1, 25)]), ("LAMBDA", PyVal.numV 0),
   ("neuron", PyVal.strV "sigmoid"), ("maxiter", PyVal.natV 1000),
   ("optimiser", PyVal.strV "fmin_cg"), ("_trainedParams", PyVal.noneV)]

/-- `NeuralNetwork.setattr` (lines 163-169): assigns `parameter` only when it is
already a key of `self.__dict__`; otherwise raises `AttributeError` (`Option.none`),
creating nothing. -/
def setattr (d : List (String × PyVal)) (p : String) (v : PyVal) :
    Option (List (String × PyVal)) :=
  if d.any (fun q => q.1 == p) then some (d.map (fun q => if q.1 == p then (p, v) else q))
  else Option.none

/-- `NeuralNetwork.set_params` (lines 159-161): applies `setattr` to each key/value
pair in turn; the first failure aborts the call. -/
def set_params : List (String × PyVal) → List (String × PyVal) →
    Option (List (String × PyVal))
  | d, [] => some d
  | d, (p, v) :: rest =>
    match setattr d p v with
    | Option.none => Option.none
    | some d2 => set_params d2 rest

/-- The recognized configuration options: exactly the keys reported by `get_params`
(lines 152-157). -/
def recognizedOptions : List String :=
  ["architecture", "LAMBDA", "neuron", "optimiser", "maxiter"]

/-- Attribute read from a `__dict__`. -/
def getattrD (d : List (String × PyVal)) (p : String) : Option PyVal :=
  (d.find? (fun q => q.1 == p)).map (fun q => q.2)

/- ### set_params lemmas -/

theorem default_initDict : initDict [(1, 25)] 0 "sigmoid" "fmin_cg" 1000 = some defaultDict :=
  rfl

theorem setattr_keys (d : List (String × PyVal)) (p : String) (v : PyVal)
    (d2 : List (String × PyVal)) (h : setattr d p v = some d2) :
    d2.map Prod.fst = d.map Prod.fst := by
  unfold setattr at h
  by_cases hc : d.any (fun q => q.1 == p) = true
  · rw [if_pos hc] at h
    cases h
    rw [List.map_map]
    refine List.map_congr_left ?_
    intro q _
    by_cases hqp : (q.1 == p) = true
    · simp only [Function.comp, hqp, if_pos]
      exact (beq_iff_eq.mp hqp).symm
    · simp only [Function.comp, hqp]
      rfl
  · rw [if_neg hc] at h
    cases h

theorem set_params_keys (ps : List (String × PyVal)) :
    ∀ (d d2 : List (String × PyVal)), set_params d ps = some d2 →
      d2.map Prod.fst = d.map Prod.fst := by
  induction ps with
  | nil =>
    intro d d2 h
    cases h
    rfl
  | cons pv rest ih =>
    intro d d2 h
    obtain ⟨p, v⟩ := pv
    rw [set_params] at h
    cases hs : setattr d p v with
    | none => rw [hs] at h; cases h
    | some dm =>
      rw [hs] at h
      exact (ih dm d2 h).trans (setattr_keys d p v dm hs)

/- ### Claim theorems for set_params -/

/-- C9 counterexample: `_trainedParams` is not one of the recognized configuration
options, yet `set_params` with that key succeeds on a default instance instead of
failing. -/
theorem set_params_accepts_private_cex :
    recognizedOptions.contains "_trainedParams" = false ∧
    (set_params defaultDict [("_trainedParams", PyVal.arrV [1])]).isSome = true :=
  ⟨by decide, by decide⟩

/-- C9 (amended): `set_params` fails (AttributeError) precisely for keys that are not
existing instance attributes — the five recognized options plus the private
`_trainedParams` slot — and a successful call never creates a new attribute: the key
set of `__dict__` is unchanged. -/
theorem set_params_unknown_key (d : List (String × PyVal)) (p : String) (v : PyVal)
    (h : ¬ p ∈ d.map Prod.fst) :
    set_params d [(p, v)] = Option.none ∧
    ∀ (ps : List (String × PyVal)) (d2 : List (String × PyVal)),
      set_params d ps = some d2 → d2.map Prod.fst = d.map Prod.fst := by
  constructor
  · have hany : d.any (fun q => q.1 == p) = false := by
      rw [List.any_eq_false]
      intro q hq
      have : q.1 ≠ p := fun he => h (he ▸ List.mem_map_of_mem Prod.fst hq)
      simp [this]
    have hsa : setattr d p v = Option.none := by
      unfold setattr
      rw [hany]
      rfl
    rw [set_params, hsa]
  · intro ps d2 hps
    exact set_params_keys ps d d2 hps

/-- Witness for the amended C9: `regularizationStrength` (the spec's name for the
option the code calls `LAMBDA`) is not an attribute of a default instance, so
`set_params` rejects it. -/
theorem set_params_unknown_key_witness :
    (¬ "regularizationStrength" ∈ defaultDict.map Prod.fst) ∧
    (set_params defaultDict [("regularizationStrength", PyVal.numV 1)] = Option.none ∧
      ∀ (ps : List (String × PyVal)) (d2 : List (String × PyVal)),
        set_params defaultDict ps = some d2 → d2.map Prod.fst = defaultDict.map Prod.fst) :=
  ⟨by decide,
    set_params_unknown_key defaultDict "regularizationStrength" (PyVal.numV 1) (by decide)⟩

/-- C10: `set_params` accepts any key that is already an instance attribute, not only
the documented options: the key `_trainedParams` succeeds on every freshly
constructed instance and replaces the stored trained-parameter vector (and `fit`
only ever reassigns this same attribute, so the same holds after training). -/
theorem set_params_mutates_trainedParams (architecture : List (Nat × Nat)) (LAMBDA : ℚ)
    (neuron : String) (maxiter : Nat) (v : List ℚ) :
    ∃ d0 d2, initDict architecture LAMBDA neuron "fmin_cg" maxiter = some d0 ∧
      set_params d0 [("_trainedParams", PyVal.arrV v)] = some d2 ∧
      getattrD d2 "_trainedParams" = some (PyVal.arrV v) ∧
      d2.map Prod.fst = d0.map Prod.fst :=
  ⟨_, _, rfl, rfl, rfl, rfl⟩

/- ### Shapes (for the gradient/parameter layout claim) -/

/-- `M` is an `(r, c)` numpy array: `r` rows, each of length `c`. -/
def isShape (M : Mat) (r c : Nat) : Prop :=
  M.length = r ∧ ∀ row ∈ M, row.length = c

instance isShape_decidable (M : Mat) (r c : Nat) : Decidable (isShape M r c) := by
  unfold isShape
  infer_instance

theorem isShape_row (M : Mat) (r c i : Nat) (h : isShape M r c) (hi : i < r) :
    (M.getD i []).length = c := by
  obtain ⟨hlen, hrows⟩ := h
  have hi2 : i < M.length := by omega
  rw [List.getD_eq_getElem?_getD, List.getElem?_eq_getElem hi2]
  exact hrows M[i] (List.getElem_mem hi2)

theorem isShape_matMul (A B : Mat) (r k c : Nat)
    (hA : isShape A r k) (hB : isShape B k c) (hk : 0 < k) :
    isShape (matMul A B) r c := by
  obtain ⟨hAl, _⟩ := hA
  obtain ⟨hBl, hBr⟩ := hB
  have hhead : (B.headD []).length = c := by
    cases B with
    | nil => simp at hBl; omega
    | cons b rest => exact hBr b (List.mem_cons_self b rest)
  constructor
  · simp [matMul, hAl]
  · intro row hrow
    obtain ⟨arow, _, rfl⟩ := List.mem_map.mp hrow
    rw [List.length_map, List.length_range]
    exact hhead

theorem isShape_transposeM (M : Mat) (r c : Nat) (h : isShape M r c) (hr : 0 < r) :
    isShape (transposeM M) c r := by
  obtain ⟨hl, hrows⟩ := h
  have hhead : (M.headD []).length = c := by
    cases M with
    | nil => simp at hl; omega
    | cons b rest => exact hrows b (List.mem_cons_self b rest)
  constructor
  · rw [transposeM, List.length_map, List.length_range]
    exact hhead
  · intro row hrow
    rw [transposeM, hhead] at hrow
    obtain ⟨j, _, rfl⟩ := List.mem_map.mp hrow
    simp [hl]

theorem isShape_zipWith (f : ℚ → ℚ → ℚ) :
    ∀ (A B : Mat) (r c : Nat), isShape A r c → isShape B r c →
      isShape (List.zipWith (List.zipWith f) A B) r c := by
  intro A
  induction A with
  | nil =>
    intro B r c hA _
    obtain ⟨hl, _⟩ := hA
    simp at hl
    subst hl
    exact ⟨by simp, by intro row hrow; simp at hrow⟩
  | cons a A2 ih =>
    intro B r c hA hB
    obtain ⟨hAl, hArows⟩ := hA
    obtain ⟨hBl, hBrows⟩ := hB
    cases B with
    | nil =>
      simp at hBl hAl
      omega
    | cons b B2 =>
      have hr : r = A2.length + 1 := by simpa using hAl.symm
      subst hr
      have hihA : isShape A2 A2.length c :=
        ⟨rfl, fun row hrow => hArows row (List.mem_cons_of_mem a hrow)⟩
      have hihB : isShape B2 A2.length c := by
        refine ⟨by simpa using hBl, fun row hrow => hBrows row (List.mem_cons_of_mem b hrow)⟩
      obtain ⟨hl2, hrows2⟩ := ih B2 A2.length c hihA hihB
      constructor
      · simp [hl2]
      · intro row hrow
        rcases List.mem_cons.mp hrow with h | h
        · subst h
          have ha : a.length = c := hArows a (List.mem_cons_self a A2)
          have hb : b.length = c := hBrows b (List.mem_cons_self b B2)
          simp [ha, hb]
        · exact hrows2 row h

theorem isShape_hadamard (A B : Mat) (r c : Nat) (hA : isShape A r c) (hB : isShape B r c) :
    isShape (hadamard A B) r c :=
  isShape_zipWith (fun x y => x * y) A B r c hA hB

theorem isShape_matSub (A B : Mat) (r c : Nat) (hA : isShape A r c) (hB : isShape B r c) :
    isShape (matSub A B) r c :=
  isShape_zipWith (fun x y => x - y) A B r c hA hB

theorem isShape_matMap (f : ℚ → ℚ) (M : Mat) (r c : Nat) (h : isShape M r c) :
    isShape (matMap f M) r c := by
  obtain ⟨hl, hrows⟩ := h
  constructor
  · simp [matMap, hl]
  · intro row hrow
    rw [matMap] at hrow
    obtain ⟨row0, hmem, rfl⟩ := List.mem_map.mp hrow
    simp [hrows row0 hmem]

theorem isShape_smul (s : ℚ) (M : Mat) (r c : Nat) (h : isShape M r c) :
    isShape (smul s M) r c :=
  isShape_matMap (fun x => s * x) M r c h

theorem isShape_dropRow (M : Mat) (r c : Nat) (h : isShape M (r + 1) c) :
    isShape (M.drop 1) r c := by
  obtain ⟨hl, hrows⟩ := h
  constructor
  · simp [hl]
  · intro row hrow
    exact hrows row (List.mem_of_mem_drop hrow)

theorem isShape_addReg (L m : ℚ) :
    ∀ (g t : Mat) (r c : Nat), isShape g r c → isShape t r c →
      isShape (addReg L m t g) r c := by
  intro g
  induction g with
  | nil =>
    intro t r c hg _
    obtain ⟨hl, _⟩ := hg
    simp at hl
    subst hl
    exact ⟨by simp [addReg], by intro row hrow; simp [addReg] at hrow⟩
  | cons grow grest ih =>
    intro t r c hg ht
    obtain ⟨hgl, hgrows⟩ := hg
    obtain ⟨htl, htrows⟩ := ht
    cases t with
    | nil =>
      simp at htl hgl
      omega
    | cons trow trest =>
      have hr : r = grest.length + 1 := by simpa using hgl.symm
      subst hr
      have hihg : isShape grest grest.length c :=
        ⟨rfl, fun row hrow => hgrows row (List.mem_cons_of_mem grow hrow)⟩
      have hiht : isShape trest grest.length c := by
        refine ⟨by simpa using htl, fun row hrow => htrows row (List.mem_cons_of_mem trow hrow)⟩
      obtain ⟨hl2, hrows2⟩ := ih trest grest.length c hihg hiht
      have hglen : grow.length = c := hgrows grow (List.mem_cons_self grow grest)
      have htlen : trow.length = c := htrows trow (List.mem_cons_self trow trest)
      cases grow with
      | nil =>
        have hc : c = 0 := by simpa using hglen.symm
        constructor
        · show (([] : List ℚ) :: addReg L m trest grest).length = grest.length + 1
          simp [hl2]
        · intro row hrow
          have hrow2 : row ∈ ([] : List ℚ) :: addReg L m trest grest := hrow
          rcases List.mem_cons.mp hrow2 with h | h
          · subst h
            simp [hc]
          · exact hrows2 row h
      | cons g0 gr =>
        constructor
        · show ((g0 :: List.zipWith (fun g t => g + 1 / m * (L * t)) gr (trow.drop 1))
              :: addReg L m trest grest).length = grest.length + 1
          simp [hl2]
        · intro row hrow
          have hrow2 : row ∈ (g0 :: List.zipWith (fun g t => g + 1 / m * (L * t)) gr (trow.drop 1))
              :: addReg L m trest grest := hrow
          rcases List.mem_cons.mp hrow2 with h | h
          · subst h
            simp only [List.length_cons] at hglen
            simp [List.length_zipWith, htlen]
            omega
          · exact hrows2 row h

theorem deltaK_shape (dneuron : ℚ → ℚ) (arch : Nat → Nat) (thetas activs : List Mat)
    (N mN : Nat) (d0 : Mat)
    (ha : ∀ l, l ≤ N → 0 < arch l)
    (hts : ∀ l, l < N → isShape (thetas.getD l []) (arch (l + 1)) (arch l + 1))
    (has : ∀ l, l < N → isShape (activs.getD l []) (arch l + 1) mN)
    (hd0 : isShape d0 (arch N) mN) :
    ∀ k, k < N → isShape (deltaK dneuron thetas activs N d0 k) (arch (N - k)) mN := by
  intro k
  induction k with
  | zero =>
    intro _
    simpa using hd0
  | succ k ih =>
    intro hk
    have hkN : k < N := by omega
    have hdk := ih hkN
    have hp : N - k - 1 < N := by omega
    have hp1 : N - k - 1 + 1 = N - k := by omega
    have hth := hts (N - k - 1) hp
    rw [hp1] at hth
    have hpos : 0 < arch (N - k) := ha (N - k) (by omega)
    have htr := isShape_transposeM _ _ _ hth hpos
    have hmm := isShape_matMul _ _ _ _ _ htr hdk hpos
    have hacl := has (N - k - 1) hp
    have hmap := isShape_matMap dneuron _ _ _ hacl
    have hhad := isShape_hadamard _ _ _ _ hmm hmap
    have hdrop := isShape_dropRow _ _ _ hhad
    have hNk : N - (k + 1) = N - k - 1 := by omega
    rw [hNk]
    exact hdrop

theorem gradAt_shape (dneuron : ℚ → ℚ) (LAMBDA : ℚ) (arch : Nat → Nat)
    (thetas activs : List Mat) (N mN : Nat) (hyp targets : Mat) (m : ℚ)
    (ha : ∀ l, l ≤ N → 0 < arch l) (hm : 0 < mN)
    (hts : ∀ l, l < N → isShape (thetas.getD l []) (arch (l + 1)) (arch l + 1))
    (has : ∀ l, l < N → isShape (activs.getD l []) (arch l + 1) mN)
    (hhy : isShape hyp (arch N) mN) (htg : isShape targets (arch N) mN) :
    ∀ l, 1 ≤ l → l ≤ N →
      isShape (gradAt dneuron LAMBDA thetas activs N hyp targets m l)
        (arch l) (arch (l - 1) + 1) := by
  intro l h1 h2
  have hd0 : isShape (matSub hyp targets) (arch N) mN := isShape_matSub _ _ _ _ hhy htg
  have hkN : N - l < N := by omega
  have hdk := deltaK_shape dneuron arch thetas activs N mN (matSub hyp targets)
    ha hts has hd0 (N - l) hkN
  have hNl : N - (N - l) = l := by omega
  rw [hNl] at hdk
  have hpl : l - 1 < N := by omega
  have hacl := has (l - 1) hpl
  have htr := isShape_transposeM _ _ _ hacl (Nat.succ_pos _)
  have hmm := isShape_matMul _ _ _ _ _ hdk htr hm
  have hsm := isShape_smul (1 / m) _ _ _ hmm
  have hthl := hts (l - 1) hpl
  have hll : l - 1 + 1 = l := by omega
  rw [hll] at hthl
  exact isShape_addReg LAMBDA m _ _ _ _ hsm hthl

theorem backPropGrads_shape (dneuron : ℚ → ℚ) (LAMBDA : ℚ) (arch : Nat → Nat)
    (thetas activs : List Mat) (N mN : Nat) (hypothesis targets : Mat) (m : ℚ)
    (ha : ∀ l, l ≤ N → 0 < arch l) (hm : 0 < mN)
    (hts : ∀ l, l < N → isShape (thetas.getD l []) (arch (l + 1)) (arch l + 1))
    (has : ∀ l, l < N → isShape (activs.getD l []) (arch l + 1) mN)
    (hhy : isShape hypothesis (arch N) mN) (htg : isShape targets (arch N) mN) :
    ∀ l, l < N →
      isShape ((backPropGrads dneuron LAMBDA N thetas hypothesis activs targets m).getD l [])
        (arch (l + 1)) (arch l + 1) := by
  intro l hl
  unfold backPropGrads
  rw [getD_map_range, if_pos hl]
  exact gradAt_shape dneuron LAMBDA arch thetas activs N mN hypothesis targets m
    ha hm hts has hhy htg (l + 1) (by omega) (by omega)

theorem npRavelF_length (M : Mat) (r c : Nat) (h : isShape M r c) :
    (npRavelF M).length = r * c := by
  obtain ⟨hl, hrows⟩ := h
  cases M with
  | nil =>
    simp at hl
    subst hl
    simp [npRavelF]
  | cons row rest =>
    have hc : row.length = c := hrows row (List.mem_cons_self row rest)
    rw [npRavelF, List.length_flatten, List.map_map]
    have h1 : (((row :: rest).headD []).length) = c := hc
    rw [h1]
    have hconst : ∀ j ∈ List.range c,
        (List.length ∘ fun j2 => (row :: rest).map (fun r2 => r2.getD j2 0)) j
          = (row :: rest).length := by
      intro j _
      simp
    rw [List.map_congr_left hconst]
    have hrepl : (List.range c).map (fun _ => (row :: rest).length)
        = List.replicate c ((row :: rest).length) := by
      rw [List.map_const']
      simp
    rw [hrepl, List.sum_replicate, smul_eq_mul, hl]
    exact Nat.mul_comm c r

theorem getD_eq_getElem_of_lt {α : Type} (l : List α) (i : Nat) (d : α) (h : i < l.length) :
    l.getD i d = l[i] := by
  rw [List.getD_eq_getElem?_getD, List.getElem?_eq_getElem h]
  rfl

theorem flatten_getD_blocks (r : Nat) :
    ∀ (L : List (List ℚ)) (j i : Nat), (∀ b ∈ L, b.length = r) → j < L.length → i < r →
      L.flatten.getD (j * r + i) 0 = (L.getD j []).getD i 0 := by
  intro L
  induction L with
  | nil =>
    intro j i _ hj _
    simp at hj
  | cons b rest ih =>
    intro j i hb hj hi
    have hbl : b.length = r := hb b (List.mem_cons_self b rest)
    cases j with
    | zero =>
      rw [List.flatten_cons, show (0 * r + i) = i by omega,
        List.getD_append _ _ _ i (by omega)]
      rfl
    | succ j =>
      rw [List.flatten_cons]
      have hidx : (j + 1) * r + i = b.length + (j * r + i) := by rw [hbl]; ring
      rw [hidx, List.getD_append_right _ _ _ _ (by omega),
        show b.length + (j * r + i) - b.length = j * r + i by omega, List.getD_cons_succ]
      exact ih j i (fun b2 hb2 => hb b2 (List.mem_cons_of_mem b hb2)) (by simpa using hj) hi

theorem npReshapeF_npRavelF (M : Mat) (r c : Nat) (h : isShape M r c) :
    npReshapeF (npRavelF M) r c = some M := by
  have hlen := npRavelF_length M r c h
  obtain ⟨hMl, hrows⟩ := h
  rw [npReshapeF, if_pos hlen]
  refine congrArg some ?_
  refine List.ext_getElem ?_ ?_
  · simp [reshapeF, hMl]
  · intro i h1 h2
    have h1r : i < r := by simpa [reshapeF] using h1
    have hrowlen : M[i].length = c := hrows M[i] (List.getElem_mem h2)
    have hMpos : 0 < M.length := by omega
    have hhead : (M.headD []).length = c := by
      cases M with
      | nil => simp at hMpos
      | cons b rest2 => exact hrows b (List.mem_cons_self b rest2)
    show (reshapeF (npRavelF M) r c)[i] = M[i]
    simp only [reshapeF, List.getElem_map, List.getElem_range]
    refine List.ext_getElem ?_ ?_
    · simp [hrowlen]
    · intro j hj1 hj2
      simp only [List.getElem_map, List.getElem_range]
      have hj : j < c := by simpa using hj1
      rw [npRavelF]
      have hblocks : ∀ b ∈ (List.range ((M.headD []).length)).map
          (fun j2 => M.map (fun row => row.getD j2 0)), b.length = r := by
        intro b hb
        obtain ⟨j2, _, rfl⟩ := List.mem_map.mp hb
        simp [hMl]
      rw [flatten_getD_blocks r _ j i hblocks
        (by rw [List.length_map, List.length_range, hhead]; exact hj) h1r]
      rw [getD_map_range (fun j2 => M.map (fun row => row.getD j2 0))
        ((M.headD []).length) j [], if_pos (by rw [hhead]; exact hj)]
      rw [getD_map_lt (fun row => row.getD j 0) M i [] 0 (by omega)]
      rw [getD_eq_getElem_of_lt M i [] (by omega)]
      rw [getD_eq_getElem_of_lt M[i] j 0 (by omega)]

theorem reshapeLoop_of_flatten (arch : Nat → Nat) (v : List ℚ) :
    ∀ (gs : List Mat) (ls : List Nat) (off : Nat),
      gs.length = ls.length →
      (∀ i, i < ls.length →
        isShape (gs.getD i []) (arch (ls.getD i 0)) (arch (ls.getD i 0 - 1) + 1)) →
      v.drop off = (gs.map npRavelF).flatten →
      reshapeLoop arch v ls off = some gs := by
  intro gs
  induction gs with
  | nil =>
    intro ls off h1 _ _
    have : ls = [] := List.eq_nil_of_length_eq_zero (by simpa using h1.symm)
    subst this
    rfl
  | cons g grest ih =>
    intro ls off h1 h2 h3
    cases ls with
    | nil => simp at h1
    | cons l lrest =>
      have hg : isShape g (arch l) (arch (l - 1) + 1) := by
        have := h2 0 (by simp)
        simpa using this
      have hglen : (npRavelF g).length = arch l * (arch (l - 1) + 1) :=
        npRavelF_length g _ _ hg
      have hslice : sliceL v off (off + layerCnt arch l) = npRavelF g := by
        rw [sliceL_eq, h3]
        simp only [List.map_cons, List.flatten_cons]
        rw [show layerCnt arch l = (npRavelF g).length by rw [hglen]; rfl]
        exact List.take_left (npRavelF g) _
      have hre : npReshapeF (sliceL v off (off + layerCnt arch l)) (arch l) (arch (l - 1) + 1)
          = some g := by
        rw [hslice]
        exact npReshapeF_npRavelF g _ _ hg
      have hdrop2 : v.drop (off + layerCnt arch l) = (grest.map npRavelF).flatten := by
        rw [← List.drop_drop, h3]
        simp only [List.map_cons, List.flatten_cons]
        rw [show layerCnt arch l = (npRavelF g).length by rw [hglen]; rfl]
        exact List.drop_left (npRavelF g) _
      have hih : reshapeLoop arch v lrest (off + layerCnt arch l) = some grest := by
        refine ih lrest (off + layerCnt arch l) (by simpa using h1) ?_ hdrop2
        intro i hi
        have := h2 (i + 1) (by simpa using Nat.succ_lt_succ hi)
        simpa using this
      simp [reshapeLoop, hre, hih]

theorem map_getD_range_gen {α β : Type} (l : List α) (d : α) (f : α → β) :
    (List.range l.length).map (fun i => f (l.getD i d)) = l.map f := by
  induction l with
  | nil => rfl
  | cons a t ih =>
    rw [show (a :: t).length = t.length + 1 from rfl, List.range_succ_eq_map, List.map_cons,
      List.map_map, List.map_cons]
    refine congrArg (f a :: ·) ?_
    rw [show ((fun i => f ((a :: t).getD i d)) ∘ Nat.succ) = (fun i => f (t.getD i d)) from
      funext (fun k => congrArg f List.getD_cons_succ)]
    exact ih

theorem flattenGrads_length (arch : Nat → Nat) (N : Nat) (gs : List Mat)
    (hlen : gs.length = N)
    (hshapes : ∀ l, l < N → isShape (gs.getD l []) (arch (l + 1)) (arch l + 1)) :
    (flattenGrads gs).length = paramLen arch N := by
  rw [flattenGrads_eq_flatten, List.length_flatten, List.map_map]
  have h1 : gs.map (List.length ∘ npRavelF)
      = (List.range N).map (fun l => (npRavelF (gs.getD l [])).length) := by
    rw [← hlen]
    exact (map_getD_range_gen gs [] (List.length ∘ npRavelF)).symm
  rw [h1]
  have h2 : (List.range N).map (fun l => (npRavelF (gs.getD l [])).length)
      = layerSizes arch N := by
    unfold layerSizes
    refine List.map_congr_left ?_
    intro l hl
    rw [List.mem_range] at hl
    rw [npRavelF_length _ _ _ (hshapes l hl)]
    rfl
  rw [h2]
  rfl

/- ### Claim theorem for C7 -/

/-- C7: on every shape-consistent input (theta `l` of shape
`(arch (l+1), arch l + 1)`, activation `l` of shape `(arch l + 1, m)`, hypothesis and
targets of shape `(arch N, m)`, all layer sizes and `m` positive), the gradient
vector returned by `backProp` is the per-layer gradient matrices flattened
layer-ascending column-major: its length equals the architecture-derived parameter
vector length, and `reshapeParams` applied to it recovers exactly the per-layer
gradient matrices — the layout of gradient and parameter vector coincide. -/
theorem backProp_layout_matches_params (arch : Nat → Nat) (N mN : Nat) (m LAMBDA : ℚ)
    (dneuron : ℚ → ℚ) (thetas activs : List Mat) (hypothesis targets : Mat)
    (hN : 1 ≤ N) (hm : 0 < mN) (ha : ∀ l, l ≤ N → 0 < arch l)
    (hts : ∀ l, l < N → isShape (thetas.getD l []) (arch (l + 1)) (arch l + 1))
    (has : ∀ l, l < N → isShape (activs.getD l []) (arch l + 1) mN)
    (hhy : isShape hypothesis (arch N) mN) (htg : isShape targets (arch N) mN) :
    (backProp dneuron LAMBDA N thetas hypothesis activs targets m).length = paramLen arch N ∧
    reshapeParams arch N (backProp dneuron LAMBDA N thetas hypothesis activs targets m)
      = some (backPropGrads dneuron LAMBDA N thetas hypothesis activs targets m) := by
  have hgshape := backPropGrads_shape dneuron LAMBDA arch thetas activs N mN
    hypothesis targets m ha hm hts has hhy htg
  have hglen : (backPropGrads dneuron LAMBDA N thetas hypothesis activs targets m).length = N := by
    simp [backPropGrads]
  constructor
  · exact flattenGrads_length arch N _ hglen hgshape
  · show reshapeParams arch N
        (flattenGrads (backPropGrads dneuron LAMBDA N thetas hypothesis activs targets m)) = _
    rw [reshapeParams_eq_loop _ _ _ hN]
    refine reshapeLoop_of_flatten arch _ _ _ 0 ?_ ?_ ?_
    · simp [hglen]
    · intro i hi
      have hiN : i < N := by simpa using hi
      rw [getD_map_range (fun i => i + 1) N i 0, if_pos hiN]
      exact hgshape i hiN
    · rw [List.drop_zero]
      exact flattenGrads_eq_flatten _

/-- Witness for C7: a 1-0-1... a single-layer network (`N = 1`, every layer one unit
wide, one training column): theta `[[1, 2]]`, input activation `[[1], [1]]`,
hypothesis `[[1]]`, targets `[[0]]`. -/
theorem backProp_layout_matches_params_witness :
    ((1 : Nat) ≤ 1 ∧ (0 : Nat) < 1 ∧ (∀ l, l ≤ 1 → 0 < (fun _ => 1 : Nat → Nat) l) ∧
      (∀ l, l < 1 → isShape (([[[1, 2]]] : List Mat).getD l [])
        ((fun _ => 1 : Nat → Nat) (l + 1)) ((fun _ => 1 : Nat → Nat) l + 1)) ∧
      (∀ l, l < 1 → isShape (([[[1], [1]]] : List Mat).getD l [])
        ((fun _ => 1 : Nat → Nat) l + 1) 1) ∧
      isShape [[1]] ((fun _ => 1 : Nat → Nat) 1) 1 ∧
      isShape [[0]] ((fun _ => 1 : Nat → Nat) 1) 1) ∧
    ((backProp (fun x => x) 0 1 [[[1, 2]]] [[1]] [[[1], [1]]] [[0]] 1).length
        = paramLen (fun _ => 1) 1 ∧
      reshapeParams (fun _ => 1) 1 (backProp (fun x => x) 0 1 [[[1, 2]]] [[1]] [[[1], [1]]] [[0]] 1)
        = some (backPropGrads (fun x => x) 0 1 [[[1, 2]]] [[1]] [[[1], [1]]] [[0]] 1)) :=
  ⟨⟨by decide, by decide, by decide, by decide, by decide, by decide, by decide⟩,
    backProp_layout_matches_params (fun _ => 1) 1 1 1 0 (fun x => x) [[[1, 2]]] [[[1], [1]]]
      [[1]] [[0]] (by decide) (by decide) (by decide) (by decide) (by decide)
      (by decide) (by decide)⟩

end NNet
